import Mathlib

/-!
# Verification of the blender-mcp asynchronous command/transport layer

This file gives a shallow embedding, in Lean 4, of the core data structures and
algorithms of the `blendermcp` client transport layer:

* the batch scheduler (`blendermcp/client/batch.py`): operation buffer,
  priority/dependency ordering (`BatchManager._sort_operations`), `flush`,
  and the lock discipline of `add_operation`;
* the connection pool (`blendermcp/client/connection.py`): pool-size
  transitions of `get_connection` / `release_connection` / `_maintain_pool`,
  and the lock discipline of the waiting loop in `get_connection`;
* the request/response correlator (`blendermcp/client/client.py`,
  `send_command` and `_handle_message`);
* the cross-process IPC bridge (`blendermcp/common/ipc.py` together with
  `blendermcp/addon/executor.py`);
* the tool registry (`blendermcp/client/tools.py`).

Python dictionaries are modelled as association lists in insertion order
(CPython dicts preserve insertion order, and assignment to an existing key
keeps its position).  Python exceptions are modelled as an explicit error
type `PyExc`; fallible code returns `Except PyExc _`.  The recursive
depth-first dependency walk is modelled with an explicit fuel parameter, and
a sufficiency lemma shows the chosen fuel is never exhausted, so no behaviour
is hidden behind the fuel.
-/

/-- Python exception values raised by the embedded code.  Each constructor is
one Python exception class: `valueError` is the builtin `ValueError`,
`keyError` the builtin `KeyError`, and `validationError`, `connectionError`,
`timeoutError` are the classes of the same names from
`blendermcp/client/errors.py` (each a direct subclass of `Exception`,
distinct from the builtins).  `outOfFuel` is an artefact of the embedding
marking exhaustion of the recursion fuel; the fuel-sufficiency lemmas prove
it never occurs for the fuel actually supplied. -/
inductive PyExc where
  | valueError : String → PyExc
  | keyError : String → PyExc
  | validationError : String → PyExc
  | connectionError : String → PyExc
  | timeoutError : String → PyExc
  | outOfFuel : PyExc
deriving Repr, DecidableEq

/-- First-binding lookup in an association list, the model of Python's
`d[k]` / `d.get(k)` on a dict (keys are unique in a real dict, so the first
binding is the binding). -/
def getVal {α : Type} (k : String) : List (String × α) → Option α
  | [] => none
  | (k₀, v) :: rest => if k₀ = k then some v else getVal k rest

/-- The key list of an association list (`d.keys()`, in insertion order). -/
def keysOf {α : Type} (l : List (String × α)) : List String :=
  l.map Prod.fst

theorem getVal_isSome_of_mem_keys {α : Type} {k : String} {l : List (String × α)}
    (h : k ∈ keysOf l) : (getVal k l).isSome := by
  induction l with
  | nil => simp [keysOf] at h
  | cons e rest ih =>
    obtain ⟨k₀, v⟩ := e
    by_cases hk : k₀ = k
    · simp [getVal, hk]
    · simp [keysOf] at h
      rcases h with h | h
      · exact absurd h.symm hk
      · simpa [getVal, hk] using ih (by simpa [keysOf] using h)

theorem mem_keys_of_getVal_eq_some {α : Type} {k : String} {v : α}
    {l : List (String × α)} (h : getVal k l = some v) : k ∈ keysOf l := by
  induction l with
  | nil => simp [getVal] at h
  | cons e rest ih =>
    obtain ⟨k₀, v₀⟩ := e
    by_cases hk : k₀ = k
    · simp [keysOf, hk]
    · simp [getVal, hk] at h
      simpa [keysOf] using Or.inr (ih h)

theorem mem_of_getVal_eq_some {α : Type} {k : String} {v : α}
    {l : List (String × α)} (h : getVal k l = some v) : (k, v) ∈ l := by
  induction l with
  | nil => simp [getVal] at h
  | cons e rest ih =>
    obtain ⟨k₀, v₀⟩ := e
    by_cases hk : k₀ = k
    · simp [getVal, hk] at h
      simp [hk, h]
    · simp [getVal, hk] at h
      exact List.mem_cons_of_mem _ (ih h)

theorem getVal_eq_some_of_mem_nodup {α : Type} {k : String} {v : α}
    {l : List (String × α)} (hnd : (keysOf l).Nodup) (h : (k, v) ∈ l) :
    getVal k l = some v := by
  induction l with
  | nil => simp at h
  | cons e rest ih =>
    obtain ⟨k₀, v₀⟩ := e
    simp [keysOf] at hnd
    rcases List.mem_cons.mp h with h | h
    · have hk : k = k₀ := congrArg Prod.fst h
      have hv : v = v₀ := congrArg Prod.snd h
      subst hk
      subst hv
      simp [getVal]
    · have hk : k₀ ≠ k := by
        intro hkk
        subst hkk
        exact hnd.1 v h
      simpa [getVal, hk] using ih hnd.2 h

namespace Batch

/-- `BatchOperation` from `blendermcp/client/batch.py`: a buffered operation.
`createdAt` models `datetime.now()` as a numeric tick (later additions get
strictly larger ticks); `params` is kept opaque as a string since the
scheduler never inspects it. -/
structure BatchOperation where
  command : String
  params : String
  createdAt : Nat
  priority : Int
  dependsOn : List String
deriving Repr, DecidableEq

/-- The buffer `BatchManager._operations`: a dict from operation id to
operation, in insertion order. -/
abbrev Ops := List (String × BatchOperation)

/-- The Python sort key `lambda x: (-x[1].priority, x[1].created_at)` as a
boolean total preorder: `a` comes no later than `b` iff `a` has strictly
higher priority, or equal priority and no larger creation time. -/
def opLE (a b : String × BatchOperation) : Bool :=
  decide (b.2.priority < a.2.priority) ||
    (decide (a.2.priority = b.2.priority) && decide (a.2.createdAt ≤ b.2.createdAt))

/-- Insert into an already sorted list, keeping earlier-inserted elements
first among equals (the stability of Python's `sorted`). -/
def insertOp (x : String × BatchOperation) : Ops → Ops
  | [] => [x]
  | y :: l => if opLE x y then x :: y :: l else y :: insertOp x l

/-- Stable sort of the buffer by descending priority, ties broken by
ascending creation time: the model of
`sorted(self._operations.items(), key=lambda x: (-x[1].priority, x[1].created_at))`. -/
def sortOps : Ops → Ops
  | [] => []
  | x :: l => insertOp x (sortOps l)

/-- State threaded through the depth-first walk of `_sort_operations`:
the `visited` set and the accumulated output list `sorted_ops`. -/
structure SortState where
  visited : List String
  out : Ops
deriving Repr, DecidableEq

/-- The message of the `ValueError` raised on a dependency cycle
(`raise ValueError(f"检测到循环依赖: {op_id}")`). -/
def cycleMsg (opId : String) : String :=
  "检测到循环依赖: " ++ opId

/-- The loop `for dep_id in graph[op_id]: visit(dep_id)`: runs the visiting
function `f` on each dependency in turn, threading the state and propagating
the first raised exception. -/
def visitFold (f : String → SortState → Except PyExc SortState) :
    List String → SortState → Except PyExc SortState
  | [], s => .ok s
  | d :: ds, s =>
    match f d s with
    | .error e => .error e
    | .ok s₁ => visitFold f ds s₁

/-- The recursive `visit(op_id)` of `BatchManager._sort_operations`.
`path` models the contents of `temp_visited` (exactly the ids on the current
recursion stack: the set is added to on entry and removed from on exit, so it
follows stack discipline).  The checks happen in source order: the
`temp_visited` cycle check, the `visited` early return, then `graph[op_id]`
which raises `KeyError` for an id absent from the buffer, then the recursive
visits of the dependencies, and finally the append to the output. -/
def visit (ops : Ops) : Nat → List String → String → SortState →
    Except PyExc SortState
  | 0, _, _, _ => .error .outOfFuel
  | fuel + 1, path, opId, s =>
    if path.contains opId then
      .error (.valueError (cycleMsg opId))
    else if s.visited.contains opId then
      .ok s
    else
      match getVal opId ops with
      | none => .error (.keyError opId)
      | some op =>
        match visitFold (visit ops fuel (opId :: path)) op.dependsOn s with
        | .error e => .error e
        | .ok s₁ => .ok ⟨opId :: s₁.visited, s₁.out ++ [(opId, op)]⟩

/-- The top-level loop of `_sort_operations`: visit each buffered operation
in descending-priority order, skipping already visited ones. -/
def visitRoots (ops : Ops) (fuel : Nat) : Ops → SortState →
    Except PyExc SortState
  | [], s => .ok s
  | (opId, _) :: rest, s =>
    if s.visited.contains opId then
      visitRoots ops fuel rest s
    else
      match visit ops fuel [] opId s with
      | .error e => .error e
      | .ok s₁ => visitRoots ops fuel rest s₁

/-- `BatchManager._sort_operations`: a topological sort of the buffer by
dependencies, roots taken in descending priority order (ties by ascending
creation time).  The fuel `ops.length + 1` bounds the recursion depth; the
fuel-sufficiency lemma below shows it is never exhausted. -/
def sortOperations (ops : Ops) : Except PyExc Ops :=
  match visitRoots ops (ops.length + 1) (sortOps ops) ⟨[], []⟩ with
  | .error e => .error e
  | .ok s => .ok s.out

/-- `BatchManager.flush`: returns `[]` on an empty buffer, otherwise the
sorted operations (exceptions from `_sort_operations` propagate uncaught;
the buffer-clearing and the compression flag do not affect the returned
order and are modelled in the `add_operation` machine below). -/
def flush (ops : Ops) : Except PyExc Ops :=
  if ops.isEmpty then .ok [] else sortOperations ops

end Batch

namespace Batch

/-- Dependency ordering of an output list: every element's declared
dependencies all occur strictly earlier in the list. -/
def OrderOK (l : Ops) : Prop :=
  ∀ i, (hi : i < l.length) → ∀ d ∈ (l[i]).2.dependsOn,
    ∃ j, ∃ hj : j < l.length, j < i ∧ (l[j]).1 = d

/-- Invariant of the DFS state: every visited id has been output, every
output entry is a genuine binding of the buffer, and the output respects
dependencies. -/
def Inv (ops : Ops) (s : SortState) : Prop :=
  (∀ id ∈ s.visited, id ∈ keysOf s.out) ∧
  (∀ e ∈ s.out, getVal e.1 ops = some e.2) ∧
  OrderOK s.out

theorem mem_keysOf_iff {α : Type} {l : List (String × α)} {d : String} :
    d ∈ keysOf l ↔ ∃ j, ∃ hj : j < l.length, (l[j]).1 = d := by
  constructor
  · intro h
    obtain ⟨e, he, hfst⟩ := List.mem_map.mp h
    obtain ⟨j, hj, hje⟩ := List.mem_iff_getElem.mp he
    exact ⟨j, hj, by rw [hje]; exact hfst⟩
  · rintro ⟨j, hj, hjd⟩
    exact List.mem_map.mpr ⟨l[j], List.getElem_mem hj, hjd⟩

theorem orderOK_append {l : Ops} {opId : String} {op : BatchOperation}
    (h : OrderOK l) (hd : ∀ d ∈ op.dependsOn, d ∈ keysOf l) :
    OrderOK (l ++ [(opId, op)]) := by
  intro i hi d hdi
  simp only [List.length_append, List.length_singleton] at hi
  by_cases hil : i < l.length
  · rw [List.getElem_append_left hil] at hdi
    obtain ⟨j, hj, hji, hjd⟩ := h i hil d hdi
    refine ⟨j, by simp only [List.length_append, List.length_singleton]; omega, hji, ?_⟩
    rw [List.getElem_append_left hj]
    exact hjd
  · have hil : i = l.length := by omega
    subst hil
    have hibound : l.length < (l ++ [(opId, op)]).length := by simp
    have hx : (l ++ [(opId, op)])[l.length] = (opId, op) := by
      rw [List.getElem_append_right (le_refl _)]
      simp
    rw [hx] at hdi
    obtain ⟨j, hj, hjd⟩ := mem_keysOf_iff.mp (hd d hdi)
    refine ⟨j, by simp only [List.length_append, List.length_singleton]; omega,
      by omega, ?_⟩
    rw [List.getElem_append_left hj]
    exact hjd

/-- Master lemma on successful runs of the DFS: the visited set grows, the
visited id ends up visited and was not on the recursion stack, and the state
invariant is preserved. -/
theorem visit_ok_props (ops : Ops) : ∀ fuel : Nat,
    (∀ path opId s s₁, visit ops fuel path opId s = .ok s₁ →
      s.visited ⊆ s₁.visited ∧ opId ∈ s₁.visited ∧ opId ∉ path ∧
        (Inv ops s → Inv ops s₁)) ∧
    (∀ path ds s s₁, visitFold (visit ops fuel path) ds s = .ok s₁ →
      s.visited ⊆ s₁.visited ∧ (∀ d ∈ ds, d ∈ s₁.visited ∧ d ∉ path) ∧
        (Inv ops s → Inv ops s₁)) := by
  intro fuel
  induction fuel with
  | zero =>
    constructor
    · intro path opId s s₁ h
      simp [visit] at h
    · intro path ds s s₁ h
      induction ds generalizing s with
      | nil =>
        simp only [visitFold] at h
        cases h
        exact ⟨List.Subset.refl _, by simp, fun hI => hI⟩
      | cons d ds ih =>
        simp [visit, visitFold] at h
  | succ fuel ih =>
    have hV : ∀ path opId s s₁, visit ops (fuel + 1) path opId s = .ok s₁ →
        s.visited ⊆ s₁.visited ∧ opId ∈ s₁.visited ∧ opId ∉ path ∧
          (Inv ops s → Inv ops s₁) := by
      intro path opId s s₁ h
      rw [visit] at h
      split at h
      · exact absurd h (by simp)
      · next hpath =>
        split at h
        · next hvis =>
          cases h
          refine ⟨List.Subset.refl _, ?_, ?_, fun hI => hI⟩
          · simpa using hvis
          · simpa using hpath
        · next hvis =>
          split at h
          · exact absurd h (by simp)
          · next op hg =>
            split at h
            · exact absurd h (by simp)
            · next s₂ hf =>
              simp only [Except.ok.injEq] at h
              obtain ⟨hsub, hdeps, hInv⟩ := ih.2 _ _ _ _ hf
              subst h
              refine ⟨?_, by simp, by simpa using hpath, ?_⟩
              · exact hsub.trans (List.subset_cons_self _ _)
              · intro hI
                obtain ⟨hIvis, hIgen, hIord⟩ := hInv hI
                refine ⟨?_, ?_, ?_⟩
                · intro id hid
                  rcases List.mem_cons.mp hid with hid | hid
                  · subst hid
                    simp [keysOf]
                  · have := hIvis id hid
                    simp only [keysOf, List.map_append] at *
                    exact List.mem_append_left _ this
                · intro e he
                  rcases List.mem_append.mp he with he | he
                  · exact hIgen e he
                  · simp only [List.mem_singleton] at he
                    subst he
                    exact hg
                · refine orderOK_append hIord ?_
                  intro d hd
                  exact hIvis d (hdeps d hd).1
    refine ⟨hV, ?_⟩
    intro path ds s s₁ h
    induction ds generalizing s with
    | nil =>
      simp only [visitFold] at h
      cases h
      exact ⟨List.Subset.refl _, by simp, fun hI => hI⟩
    | cons d ds ihds =>
      simp only [visitFold] at h
      cases hd : visit ops (fuel + 1) path d s with
      | error e => rw [hd] at h; simp at h
      | ok s₂ =>
        rw [hd] at h
        obtain ⟨hsub₁, hdmem, hdpath, hInv₁⟩ := hV _ _ _ _ hd
        obtain ⟨hsub₂, hrest, hInv₂⟩ := ihds _ h
        refine ⟨hsub₁.trans hsub₂, ?_, fun hI => hInv₂ (hInv₁ hI)⟩
        intro d' hd'
        rcases List.mem_cons.mp hd' with hd' | hd'
        · subst hd'
          exact ⟨hsub₂ hdmem, hdpath⟩
        · exact hrest d' hd'

end Batch

namespace Batch

theorem insertOp_perm (x : String × BatchOperation) (l : Ops) :
    List.Perm (insertOp x l) (x :: l) := by
  induction l with
  | nil => simp [insertOp]
  | cons y l ih =>
    by_cases hle : opLE x y
    · simp [insertOp, hle]
    · simp only [insertOp, hle, Bool.false_eq_true, if_false]
      exact (ih.cons y).trans (List.Perm.swap x y l)

theorem sortOps_perm (l : Ops) : List.Perm (sortOps l) l := by
  induction l with
  | nil => simp [sortOps]
  | cons x l ih => exact (insertOp_perm x (sortOps l)).trans (ih.cons x)

theorem opLE_total (a b : String × BatchOperation) :
    opLE a b = true ∨ opLE b a = true := by
  simp only [opLE, Bool.or_eq_true, Bool.and_eq_true, decide_eq_true_eq]
  rcases lt_trichotomy a.2.priority b.2.priority with h | h | h
  · right; left; exact h
  · rcases Nat.le_total a.2.createdAt b.2.createdAt with h₂ | h₂
    · left; right; exact ⟨h, h₂⟩
    · right; right; exact ⟨h.symm, h₂⟩
  · left; left; exact h

theorem insertOp_sorted {x : String × BatchOperation} {l : Ops}
    (h : List.Pairwise (fun a b => opLE a b = true) l) :
    List.Pairwise (fun a b => opLE a b = true) (insertOp x l) := by
  induction l with
  | nil => simp [insertOp]
  | cons y l ih =>
    by_cases hle : opLE x y
    · simp only [insertOp, hle, if_true]
      refine List.Pairwise.cons ?_ h
      intro b hb
      rcases List.mem_cons.mp hb with hb | hb
      · subst hb; exact hle
      · have hyb := (List.pairwise_cons.mp h).1 b hb
        -- transitivity of the lexicographic key
        simp only [opLE, Bool.or_eq_true, Bool.and_eq_true, decide_eq_true_eq] at *
        rcases hle with h₁ | ⟨h₁, h₁'⟩ <;> rcases hyb with h₂ | ⟨h₂, h₂'⟩
        · left; exact h₂.trans h₁
        · left; exact h₂ ▸ h₁
        · left; exact h₁ ▸ h₂
        · right; exact ⟨h₁.trans h₂, h₁'.trans h₂'⟩
    · simp only [insertOp, hle, Bool.false_eq_true, if_false]
      obtain ⟨hy, hl⟩ := List.pairwise_cons.mp h
      refine List.Pairwise.cons ?_ (ih hl)
      intro b hb
      have hb' := (insertOp_perm x l).mem_iff.mp hb
      rcases List.mem_cons.mp hb' with hb' | hb'
      · rw [hb']
        rcases opLE_total x y with hx | hx
        · exact absurd hx hle
        · exact hx
      · exact hy b hb'

theorem sortOps_sorted (l : Ops) :
    List.Pairwise (fun a b => opLE a b = true) (sortOps l) := by
  induction l with
  | nil => simp [sortOps]
  | cons x l ih => exact insertOp_sorted ih

theorem visitRoots_ok_props (ops : Ops) (fuel : Nat) :
    ∀ roots s s₁, visitRoots ops fuel roots s = .ok s₁ →
      s.visited ⊆ s₁.visited ∧ (∀ e ∈ roots, e.1 ∈ s₁.visited) ∧
        (Inv ops s → Inv ops s₁) := by
  intro roots
  induction roots with
  | nil =>
    intro s s₁ h
    simp only [visitRoots] at h
    cases h
    exact ⟨List.Subset.refl _, by simp, fun hI => hI⟩
  | cons e rest ih =>
    intro s s₁ h
    obtain ⟨opId, op⟩ := e
    rw [visitRoots] at h
    split at h
    · next hvis =>
      obtain ⟨hsub, hrest, hInv⟩ := ih _ _ h
      refine ⟨hsub, ?_, hInv⟩
      intro e he
      rcases List.mem_cons.mp he with he | he
      · subst he
        exact hsub (by simpa using hvis)
      · exact hrest e he
    · next hvis =>
      split at h
      · exact absurd h (by simp)
      · next s₂ hv =>
        obtain ⟨hsub₁, hmem, _, hInv₁⟩ := (visit_ok_props ops fuel).1 _ _ _ _ hv
        obtain ⟨hsub₂, hrest, hInv₂⟩ := ih _ _ h
        refine ⟨hsub₁.trans hsub₂, ?_, fun hI => hInv₂ (hInv₁ hI)⟩
        intro e he
        rcases List.mem_cons.mp he with he | he
        · subst he
          exact hsub₂ hmem
        · exact hrest e he

/-- On success, `_sort_operations` outputs a dependency-respecting order, its
output contains every buffered id, and every output entry is a genuine
binding of the buffer. -/
theorem sortOperations_ok_props {ops l : Ops} (h : sortOperations ops = .ok l) :
    OrderOK l ∧ (∀ id ∈ keysOf ops, id ∈ keysOf l) ∧
      (∀ e ∈ l, getVal e.1 ops = some e.2) := by
  rw [sortOperations] at h
  split at h
  · exact absurd h (by simp)
  · next s hs =>
    cases h
    obtain ⟨_, hroots, hInv⟩ := visitRoots_ok_props ops (ops.length + 1) _ _ _ hs
    have hI : Inv ops s := hInv ⟨by simp, by simp, by intro i hi; simp at hi⟩
    refine ⟨hI.2.2, ?_, hI.2.1⟩
    intro id hid
    obtain ⟨e, he, hfst⟩ := List.mem_map.mp hid
    have he' : e ∈ sortOps ops := (sortOps_perm ops).mem_iff.mpr he
    exact hfst ▸ hI.1 e.1 (hroots e he')

end Batch

namespace Batch

/-- Nonempty dependency paths through the buffer: `DepPath ops a b` holds
when following declared dependencies from `a` reaches `b` in one or more
steps. -/
inductive DepPath (ops : Ops) : String → String → Prop where
  | single {a d : String} {op : BatchOperation} :
      getVal a ops = some op → d ∈ op.dependsOn → DepPath ops a d
  | cons {a d c : String} {op : BatchOperation} :
      getVal a ops = some op → d ∈ op.dependsOn → DepPath ops d c →
        DepPath ops a c

theorem depPath_trans {ops : Ops} {a b c : String}
    (h₁ : DepPath ops a b) (h₂ : DepPath ops b c) : DepPath ops a c := by
  induction h₁ with
  | single hg hd => exact DepPath.cons hg hd h₂
  | cons hg hd _ ih => exact DepPath.cons hg hd (ih h₂)

/-- The buffer's dependency graph has a cycle. -/
def HasCycle (ops : Ops) : Prop := ∃ x, DepPath ops x x

/-- Every dependency named in the buffer is itself an id of the buffer. -/
abbrev Closed (ops : Ops) : Prop :=
  ∀ e ∈ ops, ∀ d ∈ e.2.dependsOn, d ∈ keysOf ops

/-- The DFS recursion stack read as a dependency chain: each id on the
stack was entered while visiting the dependencies of the id below it. -/
def stacked (ops : Ops) : List String → Prop
  | a :: b :: rest =>
    (∃ op, getVal b ops = some op ∧ a ∈ op.dependsOn) ∧ stacked ops (b :: rest)
  | _ => True

theorem stacked_depPath {ops : Ops} :
    ∀ (l : List String) (a b : String), stacked ops (a :: l) → b ∈ l →
      DepPath ops b a := by
  intro l
  induction l with
  | nil =>
    intro a b _ hb
    simp at hb
  | cons b₁ rest ih =>
    intro a b hst hb
    obtain ⟨⟨op, hg, hd⟩, hst₁⟩ := hst
    rcases List.mem_cons.mp hb with hb | hb
    · subst hb
      exact DepPath.single hg hd
    · exact depPath_trans (ih b₁ b hst₁ hb) (DepPath.single hg hd)

/-- Ids of the buffer that are not yet on the DFS stack; a bound on the
remaining recursion depth. -/
def countFresh (ops : Ops) (path : List String) : Nat :=
  ((keysOf ops).filter (fun k => decide (k ∉ path))).length

theorem filter_length_mono {l : List String} {p q : String → Bool}
    (h : ∀ k, p k = true → q k = true) :
    (l.filter p).length ≤ (l.filter q).length := by
  induction l with
  | nil => simp
  | cons y l ih =>
    by_cases hp : p y = true
    · simp [List.filter_cons, hp, h y hp]
      omega
    · simp only [List.filter_cons, hp, Bool.false_eq_true, if_false]
      by_cases hq : q y = true
      · simp only [hq, if_true, List.length_cons]
        omega
      · simp only [hq, Bool.false_eq_true, if_false]
        exact ih

theorem countFresh_cons_lt {ops : Ops} {path : List String} {x : String}
    (hx : x ∈ keysOf ops) (hnp : x ∉ path) :
    countFresh ops (x :: path) < countFresh ops path := by
  unfold countFresh
  generalize keysOf ops = l at hx
  induction l with
  | nil => simp at hx
  | cons y l ih =>
    by_cases hy : y = x
    · subst hy
      have h₁ : (decide (y ∉ y :: path)) = false := by simp
      have h₂ : (decide (y ∉ path)) = true := by simpa using hnp
      simp only [List.filter_cons, h₁, h₂, Bool.false_eq_true, if_false, if_true,
        List.length_cons]
      have := filter_length_mono (l := l)
        (p := fun k => decide (k ∉ y :: path)) (q := fun k => decide (k ∉ path))
        (by
          intro k hk
          simp only [decide_eq_true_eq] at hk ⊢
          intro hmem
          exact hk (List.mem_cons_of_mem _ hmem))
      omega
    · have hxl : x ∈ l := by
        rcases List.mem_cons.mp hx with h | h
        · exact absurd h.symm hy
        · exact h
      have hcond : (decide (y ∉ x :: path)) = (decide (y ∉ path)) := by
        by_cases hyp : y ∈ path
        · simp [hyp]
        · simp [hyp, List.mem_cons, hy]
      by_cases hyp : (decide (y ∉ path)) = true
      · simp only [List.filter_cons, hcond, hyp, if_true, List.length_cons]
        exact Nat.succ_lt_succ (ih hxl)
      · simp only [List.filter_cons, hcond, hyp, Bool.false_eq_true, if_false]
        exact ih hxl

theorem countFresh_le_length (ops : Ops) : countFresh ops [] ≤ ops.length := by
  unfold countFresh
  calc ((keysOf ops).filter _).length ≤ (keysOf ops).length :=
        List.length_filter_le _ _
    _ = ops.length := by simp [keysOf]

/-- Master lemma on failing runs of the DFS: the raised exception is the
fuel artefact (only when the fuel was at most the remaining fresh ids), a
`KeyError` on an id with no binding that was named as a dependency or
visited directly, or the cycle `ValueError` whose reported id really lies on
a dependency cycle. -/
theorem visit_error_shape (ops : Ops) : ∀ fuel : Nat,
    (∀ path opId s e, stacked ops (opId :: path) →
      visit ops fuel path opId s = .error e →
      (e = .outOfFuel ∧ fuel ≤ countFresh ops path) ∨
      (∃ k, e = .keyError k ∧ getVal k ops = none ∧
        (k = opId ∨ ∃ a op, getVal a ops = some op ∧ k ∈ op.dependsOn)) ∨
      (∃ c, e = .valueError (cycleMsg c) ∧ DepPath ops c c)) ∧
    (∀ path ds s e, (∀ d ∈ ds, stacked ops (d :: path)) →
      visitFold (visit ops fuel path) ds s = .error e →
      (e = .outOfFuel ∧ fuel ≤ countFresh ops path) ∨
      (∃ k, e = .keyError k ∧ getVal k ops = none ∧
        (k ∈ ds ∨ ∃ a op, getVal a ops = some op ∧ k ∈ op.dependsOn)) ∨
      (∃ c, e = .valueError (cycleMsg c) ∧ DepPath ops c c)) := by
  intro fuel
  induction fuel with
  | zero =>
    constructor
    · intro path opId s e _ h
      simp only [visit] at h
      cases h
      exact Or.inl ⟨rfl, Nat.zero_le _⟩
    · intro path ds s e hst h
      induction ds generalizing s with
      | nil => simp [visitFold] at h
      | cons d ds ih =>
        simp only [visitFold, visit] at h
        cases h
        exact Or.inl ⟨rfl, Nat.zero_le _⟩
  | succ fuel ih =>
    have hV : ∀ path opId s e, stacked ops (opId :: path) →
        visit ops (fuel + 1) path opId s = .error e →
        (e = .outOfFuel ∧ fuel + 1 ≤ countFresh ops path) ∨
        (∃ k, e = .keyError k ∧ getVal k ops = none ∧
          (k = opId ∨ ∃ a op, getVal a ops = some op ∧ k ∈ op.dependsOn)) ∨
        (∃ c, e = .valueError (cycleMsg c) ∧ DepPath ops c c) := by
      intro path opId s e hst h
      rw [visit] at h
      split at h
      · next hpath =>
        cases h
        refine Or.inr (Or.inr ⟨opId, rfl, ?_⟩)
        exact stacked_depPath path opId opId hst (by simpa using hpath)
      · next hpath =>
        split at h
        · exact absurd h (by simp)
        · next hvis =>
          split at h
          · next hg =>
            cases h
            exact Or.inr (Or.inl ⟨opId, rfl, hg, Or.inl rfl⟩)
          · next op hg =>
            split at h
            · next e₁ hf =>
              cases h
              have hstd : ∀ d ∈ op.dependsOn, stacked ops (d :: opId :: path) := by
                intro d hd
                exact ⟨⟨op, hg, hd⟩, hst⟩
              rcases ih.2 _ _ _ _ hstd hf with ⟨he, hle⟩ | ⟨k, hk, hkn, hor⟩ | hc
              · refine Or.inl ⟨he, ?_⟩
                have hlt := countFresh_cons_lt (mem_keys_of_getVal_eq_some hg)
                  (by simpa using hpath)
                omega
              · refine Or.inr (Or.inl ⟨k, hk, hkn, Or.inr ?_⟩)
                rcases hor with hor | hor
                · exact ⟨opId, op, hg, hor⟩
                · exact hor
              · exact Or.inr (Or.inr hc)
            · exact absurd h (by simp)
    refine ⟨hV, ?_⟩
    intro path ds
    induction ds with
    | nil =>
      intro s e hst h
      simp [visitFold] at h
    | cons d ds ihds =>
      intro s e hst h
      rw [visitFold] at h
      split at h
      · next e₁ hv =>
        cases h
        rcases hV _ _ _ _ (hst d (by simp)) hv with hl | ⟨k, hk, hkn, hor⟩ | hc
        · exact Or.inl hl
        · refine Or.inr (Or.inl ⟨k, hk, hkn, ?_⟩)
          rcases hor with hor | hor
          · exact Or.inl (hor ▸ List.mem_cons_self d ds)
          · exact Or.inr hor
        · exact Or.inr (Or.inr hc)
      · next s₂ hv =>
        rcases ihds _ _ (fun d hd => hst d (List.mem_cons_of_mem _ hd)) h with
          hl | ⟨k, hk, hkn, hor⟩ | hc
        · exact Or.inl hl
        · refine Or.inr (Or.inl ⟨k, hk, hkn, ?_⟩)
          rcases hor with hor | hor
          · exact Or.inl (List.mem_cons_of_mem _ hor)
          · exact Or.inr hor
        · exact Or.inr (Or.inr hc)

end Batch

namespace Batch

theorem visitRoots_error_shape (ops : Ops) (fuel : Nat) :
    ∀ roots s e, visitRoots ops fuel roots s = .error e →
      (e = .outOfFuel ∧ fuel ≤ countFresh ops []) ∨
      (∃ k, e = .keyError k ∧ getVal k ops = none ∧
        (k ∈ keysOf roots ∨ ∃ a op, getVal a ops = some op ∧ k ∈ op.dependsOn)) ∨
      (∃ c, e = .valueError (cycleMsg c) ∧ DepPath ops c c) := by
  intro roots
  induction roots with
  | nil =>
    intro s e h
    simp [visitRoots] at h
  | cons r rest ih =>
    intro s e h
    obtain ⟨opId, op⟩ := r
    rw [visitRoots] at h
    split at h
    · rcases ih _ _ h with hl | ⟨k, hk, hkn, hor⟩ | hc
      · exact Or.inl hl
      · refine Or.inr (Or.inl ⟨k, hk, hkn, ?_⟩)
        rcases hor with hor | hor
        · exact Or.inl (by simp [keysOf] at hor ⊢; exact Or.inr hor)
        · exact Or.inr hor
      · exact Or.inr (Or.inr hc)
    · split at h
      · next e₁ hv =>
        cases h
        rcases (visit_error_shape ops fuel).1 _ _ _ _ (by trivial) hv with
          hl | ⟨k, hk, hkn, hor⟩ | hc
        · exact Or.inl hl
        · refine Or.inr (Or.inl ⟨k, hk, hkn, ?_⟩)
          rcases hor with hor | hor
          · exact Or.inl (by simp [keysOf, hor])
          · exact Or.inr hor
        · exact Or.inr (Or.inr hc)
      · next s₂ hv =>
        rcases ih _ _ h with hl | ⟨k, hk, hkn, hor⟩ | hc
        · exact Or.inl hl
        · refine Or.inr (Or.inl ⟨k, hk, hkn, ?_⟩)
          rcases hor with hor | hor
          · exact Or.inl (by simp [keysOf] at hor ⊢; exact Or.inr hor)
          · exact Or.inr hor
        · exact Or.inr (Or.inr hc)

/-- On failure, `_sort_operations` raised either a `KeyError` on an id with
no binding in the buffer (an id of the buffer or a declared dependency), or
the cycle `ValueError` with a reported id that lies on a real dependency
cycle.  The fuel artefact is ruled out by the fuel bound. -/
theorem sortOperations_error_shape {ops : Ops} {e : PyExc}
    (h : sortOperations ops = .error e) :
    (∃ k, e = .keyError k ∧ getVal k ops = none ∧
      (k ∈ keysOf ops ∨ ∃ a op, getVal a ops = some op ∧ k ∈ op.dependsOn)) ∨
    (∃ c, e = .valueError (cycleMsg c) ∧ DepPath ops c c) := by
  rw [sortOperations] at h
  split at h
  · next e₁ hr =>
    cases h
    rcases visitRoots_error_shape ops (ops.length + 1) _ _ _ hr with
      ⟨_, hle⟩ | ⟨k, hk, hkn, hor⟩ | hc
    · have := countFresh_le_length ops
      omega
    · refine Or.inl ⟨k, hk, hkn, ?_⟩
      rcases hor with hor | hor
      · refine Or.inl ?_
        obtain ⟨x, hx, hfst⟩ := List.mem_map.mp hor
        have hx' : x ∈ ops := (sortOps_perm ops).mem_iff.mp hx
        exact hfst ▸ List.mem_map.mpr ⟨x, hx', rfl⟩
      · exact Or.inr hor
    · exact Or.inr hc
  · exact absurd h (by simp)

theorem depPath_step_down {ops l : Ops} (hOrd : OrderOK l)
    (hGen : ∀ e ∈ l, getVal e.1 ops = some e.2) {a d : String}
    {op : BatchOperation} (hg : getVal a ops = some op) (hd : d ∈ op.dependsOn)
    {i : Nat} (hi : i < l.length) (hia : (l[i]).1 = a) :
    ∃ j, ∃ hj : j < l.length, j < i ∧ (l[j]).1 = d := by
  have hgen := hGen (l[i]) (List.getElem_mem hi)
  rw [hia, hg] at hgen
  have hop : op = (l[i]).2 := by
    injection hgen
  exact hOrd i hi d (hop ▸ hd)

/-- A successful topological sort is incompatible with a dependency cycle
among the buffered ids. -/
theorem depPath_no_ok {ops l : Ops} (hOrd : OrderOK l)
    (hKeys : ∀ id ∈ keysOf ops, id ∈ keysOf l)
    (hGen : ∀ e ∈ l, getVal e.1 ops = some e.2)
    {x : String} (hcyc : DepPath ops x x) : False := by
  have hdesc : ∀ a c : String, DepPath ops a c → ∀ i, ∀ hi : i < l.length,
      (l[i]).1 = a → ∃ j, ∃ hj : j < l.length, j < i ∧ (l[j]).1 = c := by
    intro a c hp
    induction hp with
    | single hg hd =>
      intro i hi hia
      exact depPath_step_down hOrd hGen hg hd hi hia
    | cons hg hd hsub ih =>
      intro i hi hia
      obtain ⟨j, hj, hji, hjd⟩ := depPath_step_down hOrd hGen hg hd hi hia
      obtain ⟨k, hk, hkj, hkc⟩ := ih j hj hjd
      exact ⟨k, hk, by omega, hkc⟩
  have hxkey : x ∈ keysOf ops := by
    cases hcyc with
    | single hg _ => exact mem_keys_of_getVal_eq_some hg
    | cons hg _ _ => exact mem_keys_of_getVal_eq_some hg
  obtain ⟨i₀, hi₀, hx⟩ := mem_keysOf_iff.mp (hKeys x hxkey)
  have hna : ∀ i, ∀ hi : i < l.length, (l[i]).1 = x → False := by
    intro i
    induction i using Nat.strong_induction_on with
    | _ i ihs =>
      intro hi hxi
      obtain ⟨j, hj, hji, hjx⟩ := hdesc x x hcyc i hi hxi
      exact ihs j hji hj hjx
  exact hna i₀ hi₀ hx

end Batch

/-- The Python class name of a raised exception (`type(e).__name__`). -/
def pyExcClass : PyExc → String
  | .valueError _ => "ValueError"
  | .keyError _ => "KeyError"
  | .validationError _ => "ValidationError"
  | .connectionError _ => "ConnectionError"
  | .timeoutError _ => "TimeoutError"
  | .outOfFuel => "OutOfFuel"

/-- The exception escaping a call, when one does. -/
def raisedExc {α : Type} : Except PyExc α → Option PyExc
  | .error e => some e
  | .ok _ => none

namespace Batch

/-- The spec's worked example: A (no deps, priority 0), B (depends on A,
priority 5), C (no deps, priority 10), added in this order, so A is `op_0`,
B is `op_1`, C is `op_2`. -/
def exOpA : BatchOperation := ⟨"cmdA", "", 0, 0, []⟩

def exOpB : BatchOperation := ⟨"cmdB", "", 1, 5, ["op_0"]⟩

def exOpC : BatchOperation := ⟨"cmdC", "", 2, 10, []⟩

def exOps : Ops := [("op_0", exOpA), ("op_1", exOpB), ("op_2", exOpC)]

/-- Cyclic buffer: `op_a` depends on `op_b` and `op_b` depends on `op_a`. -/
def cycOps : Ops :=
  [("op_a", ⟨"cmdA", "", 0, 0, ["op_b"]⟩), ("op_b", ⟨"cmdB", "", 1, 0, ["op_a"]⟩)]

/-- Buffer whose only operation names a dependency id absent from the buffer
(for example an id consumed by an earlier flush). -/
def dangOps : Ops := [("op_d", ⟨"cmdD", "", 0, 0, ["op_gone"]⟩)]

/-- Buffer with both a cycle and a dangling dependency; the priority walk
reaches the cycle first. -/
def cycDangOps : Ops :=
  [("op_a", ⟨"cmdA", "", 0, 0, ["op_b"]⟩), ("op_b", ⟨"cmdB", "", 1, 0, ["op_a"]⟩),
   ("op_c", ⟨"cmdC", "", 2, 0, ["op_x"]⟩)]

/-- C1, amended: for every buffer whose dependencies all resolve inside the
buffer and whose dependency graph contains a cycle, `flush()` terminates and
raises the builtin `ValueError` (not the library's `ValidationError`) whose
message `检测到循环依赖: {op_id}` names an operation id lying on a dependency
cycle.  Termination is inherent: the embedding is a total function and the
fuel artefact is excluded by `sortOperations_error_shape`. -/
theorem c1_flush_cycle_raises_valueError_on_cycle (ops : Ops)
    (hcl : Closed ops) (hcyc : HasCycle ops) :
    ∃ c, flush ops = .error (.valueError (cycleMsg c)) ∧ DepPath ops c c := by
  obtain ⟨x, hx⟩ := hcyc
  have hne : ¬ ops.isEmpty = true := by
    intro he
    rw [List.isEmpty_iff.mp he] at hx
    cases hx with
    | single hg _ => simp [getVal] at hg
    | cons hg _ _ => simp [getVal] at hg
  rw [flush, if_neg hne]
  cases hres : sortOperations ops with
  | ok l =>
    obtain ⟨hOrd, hKeys, hGen⟩ := sortOperations_ok_props hres
    exact (depPath_no_ok hOrd hKeys hGen hx).elim
  | error e =>
    rcases sortOperations_error_shape hres with ⟨k, hk, hkn, hor⟩ | ⟨c, hc, hcdp⟩
    · exfalso
      rcases hor with hor | ⟨a, op, hg, hdep⟩
      · have hs := getVal_isSome_of_mem_keys hor
        rw [hkn] at hs
        simp at hs
      · have hs := getVal_isSome_of_mem_keys
          (hcl (a, op) (mem_of_getVal_eq_some hg) k hdep)
        rw [hkn] at hs
        simp at hs
    · exact ⟨c, by rw [hc], hcdp⟩

/-- C1, witness: the two-element cycle `op_a ↔ op_b` satisfies the
hypotheses, and `flush` raises the cycle `ValueError`. -/
theorem c1_witness :
    ∃ c, flush cycOps = .error (.valueError (cycleMsg c)) ∧ DepPath cycOps c c :=
  c1_flush_cycle_raises_valueError_on_cycle cycOps (by decide)
    ⟨"op_a",
      @DepPath.cons cycOps "op_a" "op_b" "op_a" ⟨"cmdA", "", 0, 0, ["op_b"]⟩
        rfl (by decide)
        (@DepPath.single cycOps "op_b" "op_a" ⟨"cmdB", "", 1, 0, ["op_a"]⟩
          rfl (by decide))⟩

/-- C1, counterexample to the claim as stated: on the cyclic buffer
`op_a ↔ op_b`, `flush` raises the builtin `ValueError`, not the library
class `ValidationError` that the claim names. -/
theorem c1_counterexample :
    flush cycOps = .error (.valueError (cycleMsg "op_a")) ∧
    (raisedExc (flush cycOps)).map pyExcClass = some "ValueError" ∧
    (raisedExc (flush cycOps)).map pyExcClass ≠ some "ValidationError" :=
  ⟨rfl, rfl, by decide⟩

/-- C6: the roots of the dependency walk are the buffer sorted stably by
descending priority then ascending creation time; every successful `flush`
output places each operation after all of its declared dependencies; and on
the spec's worked example the output is exactly `[C, A, B]` (never `B`
before `A`).  The output is a deterministic function of the buffer contents
because `flush` is a function. -/
theorem c6_flush_priority_dependency_order :
    (∀ ops : Ops, List.Perm (sortOps ops) ops ∧
      List.Pairwise (fun a b => opLE a b = true) (sortOps ops)) ∧
    (∀ ops l : Ops, flush ops = .ok l → OrderOK l) ∧
    flush exOps = .ok [("op_2", exOpC), ("op_0", exOpA), ("op_1", exOpB)] := by
  refine ⟨fun ops => ⟨sortOps_perm ops, sortOps_sorted ops⟩, ?_, rfl⟩
  intro ops l h
  rw [flush] at h
  split at h
  · cases h
    intro i hi
    simp at hi
  · exact (sortOperations_ok_props h).1

/-- C6, witness: on the worked example the flush succeeds with
`[C, A, B]`, and that output satisfies the dependency ordering. -/
theorem c6_witness :
    flush exOps = .ok [("op_2", exOpC), ("op_0", exOpA), ("op_1", exOpB)] ∧
    OrderOK [("op_2", exOpC), ("op_0", exOpA), ("op_1", exOpB)] :=
  ⟨c6_flush_priority_dependency_order.2.2,
    c6_flush_priority_dependency_order.2.1 exOps _
      c6_flush_priority_dependency_order.2.2⟩

/-- C10, amended: when the buffer (a dict, so ids are unique) is acyclic and
some operation names a dependency id with no binding in the buffer, `flush`
raises an uncaught builtin `KeyError` naming a missing id — not an ordered
batch and not a typed validation failure. -/
theorem c10_flush_dangling_dep_raises_keyError (ops : Ops)
    (hnd : (keysOf ops).Nodup) (hacyc : ¬ HasCycle ops)
    (hdang : ∃ e ∈ ops, ∃ d ∈ e.2.dependsOn, d ∉ keysOf ops) :
    ∃ k, flush ops = .error (.keyError k) ∧ k ∉ keysOf ops := by
  obtain ⟨⟨a, opa⟩, hmem, d, hd, hdk⟩ := hdang
  have hne : ¬ ops.isEmpty = true := by
    intro he
    rw [List.isEmpty_iff.mp he] at hmem
    simp at hmem
  rw [flush, if_neg hne]
  cases hres : sortOperations ops with
  | ok l =>
    exfalso
    obtain ⟨hOrd, hKeys, hGen⟩ := sortOperations_ok_props hres
    have hga : getVal a ops = some opa := getVal_eq_some_of_mem_nodup hnd hmem
    obtain ⟨i, hi, hia⟩ :=
      mem_keysOf_iff.mp (hKeys a (mem_keys_of_getVal_eq_some hga))
    obtain ⟨j, hj, _, hjd⟩ := depPath_step_down hOrd hGen hga hd hi hia
    have hgd : getVal d ops = some ((l[j]).2) := by
      have hg := hGen (l[j]) (List.getElem_mem hj)
      rw [hjd] at hg
      exact hg
    exact hdk (mem_keys_of_getVal_eq_some hgd)
  | error e =>
    rcases sortOperations_error_shape hres with ⟨k, hk, hkn, _⟩ | ⟨c, _, hcdp⟩
    · refine ⟨k, by rw [hk], ?_⟩
      intro hkk
      have hs := getVal_isSome_of_mem_keys hkk
      rw [hkn] at hs
      simp at hs
    · exact absurd ⟨c, hcdp⟩ hacyc

/-- C10, witness: a buffer whose single operation depends on the already
flushed id `op_gone` satisfies the hypotheses, and `flush` raises
`KeyError` on a missing id. -/
theorem c10_witness :
    ∃ k, flush dangOps = .error (.keyError k) ∧ k ∉ keysOf dangOps := by
  refine c10_flush_dangling_dep_raises_keyError dangOps (by decide) ?_ (by decide)
  rintro ⟨x, hx⟩
  cases hx with
  | single hg hd =>
    by_cases hx' : ("op_d" : String) = x
    · subst hx'
      rw [show getVal "op_d" dangOps = some ⟨"cmdD", "", 0, 0, ["op_gone"]⟩ from rfl]
        at hg
      cases hg
      simp at hd
    · simp [dangOps, getVal, hx'] at hg
  | cons hg hd hsub =>
    by_cases hx' : ("op_d" : String) = x
    · subst hx'
      rw [show getVal "op_d" dangOps = some ⟨"cmdD", "", 0, 0, ["op_gone"]⟩ from rfl]
        at hg
      cases hg
      simp only [List.mem_singleton] at hd
      subst hd
      cases hsub with
      | single hg₂ _ => simp [dangOps, getVal] at hg₂
      | cons hg₂ _ _ => simp [dangOps, getVal] at hg₂
    · simp [dangOps, getVal, hx'] at hg

/-- C10, counterexample to the claim as stated: a buffer containing both a
dangling dependency (`op_c` depends on the absent `op_x`) and a cycle raises
the cycle `ValueError`, not a `KeyError`, because the walk meets the cycle
first. -/
theorem c10_counterexample :
    (∃ e ∈ cycDangOps, ∃ d ∈ e.2.dependsOn, d ∉ keysOf cycDangOps) ∧
    flush cycDangOps = .error (.valueError (cycleMsg "op_a")) ∧
    (raisedExc (flush cycDangOps)).map pyExcClass ≠ some "KeyError" :=
  ⟨by decide, rfl, by decide⟩

end Batch

namespace Batch

/-- Position of the single task executing `BatchManager.add_operation`.
`flushAcquiring` is the nested `async with self._lock` executed by the
`await self.flush()` on line 97 while `add_operation` is still inside its
own `async with self._lock` (line 83). -/
inductive AddPc where
  | acquiring
  | body
  | flushAcquiring (opId : String)
  | flushBody (opId : String)
  | returned (opId : String)
deriving Repr, DecidableEq

/-- Configuration of an `add_operation` call: whether the manager's single
`asyncio.Lock` is held, the buffer, the id counter, and the task position. -/
structure AddConfig where
  lockHeld : Bool
  operations : Ops
  counter : Nat
  pc : AddPc
deriving Repr, DecidableEq

/-- One scheduler step of the task executing
`add_operation(command, params, priority, depends_on)` against
`max_batch_size = maxSize`.  `none` means no step is enabled — the task is
parked on the lock's waiter queue.  `asyncio.Lock` is not reentrant, so an
acquire requires `lockHeld = false` even for the task that already holds
the lock; the `flushBody` arm (flush clears the buffer) is therefore
unreachable whenever `flushAcquiring` is entered with the lock held. -/
def addStep (maxSize : Nat) (command params : String) (priority : Int)
    (dependsOn : List String) : AddConfig → Option AddConfig
  | ⟨lock, ops, ctr, .acquiring⟩ =>
    if lock then none else some ⟨true, ops, ctr, .body⟩
  | ⟨lock, ops, ctr, .body⟩ =>
    let opId := "op_" ++ toString ctr
    let ops₁ := ops ++ [(opId, ⟨command, params, ctr, priority, dependsOn⟩)]
    some ⟨lock, ops₁, ctr + 1,
      if maxSize ≤ ops₁.length then .flushAcquiring opId else .returned opId⟩
  | ⟨lock, ops, ctr, .flushAcquiring opId⟩ =>
    if lock then none else some ⟨true, ops, ctr, .flushBody opId⟩
  | ⟨lock, _, ctr, .flushBody opId⟩ => some ⟨lock, [], ctr, .returned opId⟩
  | ⟨_, _, _, .returned _⟩ => none

/-- C2: whenever inserting the new operation makes the buffer reach
`max_batch_size`, the `add_operation` task acquires the lock, inserts, calls
`flush()`, and then blocks forever trying to re-acquire the non-reentrant
lock it already holds: no further step is enabled, the call never returns
its operation id, and the buffer is left non-empty rather than flushed. -/
theorem c2_add_operation_deadlocks_at_capacity (maxSize : Nat)
    (command params : String) (priority : Int) (dependsOn : List String)
    (ops₀ : Ops) (ctr : Nat) (hcap : maxSize ≤ ops₀.length + 1) :
    ∃ opId ops₁,
      addStep maxSize command params priority dependsOn
          ⟨false, ops₀, ctr, .acquiring⟩ = some ⟨true, ops₀, ctr, .body⟩ ∧
      addStep maxSize command params priority dependsOn
          ⟨true, ops₀, ctr, .body⟩ =
        some ⟨true, ops₁, ctr + 1, .flushAcquiring opId⟩ ∧
      addStep maxSize command params priority dependsOn
          ⟨true, ops₁, ctr + 1, .flushAcquiring opId⟩ = none ∧
      ops₁ ≠ [] := by
  refine ⟨"op_" ++ toString ctr,
    ops₀ ++ [("op_" ++ toString ctr, ⟨command, params, ctr, priority, dependsOn⟩)],
    ?_, ?_, ?_, ?_⟩
  · simp [addStep]
  · simp [addStep]
    omega
  · simp [addStep]
  · simp

/-- C2, witness: with `max_batch_size = 1` and an empty buffer, the very
first `add_operation` call deadlocks at the flush re-acquire. -/
theorem c2_witness :
    ∃ opId ops₁,
      addStep 1 "create_object" "p" 0 [] ⟨false, [], 0, .acquiring⟩ =
        some ⟨true, [], 0, .body⟩ ∧
      addStep 1 "create_object" "p" 0 [] ⟨true, [], 0, .body⟩ =
        some ⟨true, ops₁, 1, .flushAcquiring opId⟩ ∧
      addStep 1 "create_object" "p" 0 []
          ⟨true, ops₁, 1, .flushAcquiring opId⟩ = none ∧
      ops₁ ≠ [] :=
  c2_add_operation_deadlocks_at_capacity 1 "create_object" "p" 0 [] [] 0
    (by decide)

end Batch

namespace Pool

/-- The two tasks of the blocked-acquire scenario: `waiter` runs
`ConnectionPool.get_connection` and has reached the wait loop (lines 96-102)
with the pool full; `releaser` runs `ConnectionPool.release_connection`. -/
inductive Task where
  | waiter
  | releaser
deriving Repr, DecidableEq

/-- Position of the waiter: scanning the pool for an idle connection inside
`async with self._lock`, or done with a leased connection. -/
inductive WPc where
  | scanning
  | gotConn
deriving Repr, DecidableEq

/-- Position of the releaser: waiting to enter `async with self._lock`
(line 106), holding it while marking the connection idle, or done. -/
inductive RPc where
  | lockWait
  | releasing
  | released
deriving Repr, DecidableEq

/-- Configuration of the scenario: who holds the pool's `asyncio.Lock`, the
busy flags of the pooled connections, and both task positions. -/
structure PoolConfig where
  lockHolder : Option Task
  busy : List Bool
  wPc : WPc
  rPc : RPc
deriving Repr, DecidableEq

/-- Interleaved steps of the two tasks, as the source allows them:
the waiter can lease an idle connection and leave (releasing the lock), or
poll again (`await asyncio.sleep(0.1)` does not release the lock); the
releaser can enter the lock only when free, and then mark a connection
idle. -/
inductive PoolStep : PoolConfig → PoolConfig → Prop where
  | wFound (c : PoolConfig) (i : Nat) (hi : i < c.busy.length) :
      c.lockHolder = some .waiter → c.wPc = .scanning → c.busy[i] = false →
      PoolStep c ⟨none, c.busy.set i true, .gotConn, c.rPc⟩
  | wSpin (c : PoolConfig) :
      c.lockHolder = some .waiter → c.wPc = .scanning →
      (∀ b ∈ c.busy, b = true) → PoolStep c c
  | rAcquire (c : PoolConfig) :
      c.lockHolder = none → c.rPc = .lockWait →
      PoolStep c ⟨some .releaser, c.busy, c.wPc, .releasing⟩
  | rRelease (c : PoolConfig) (j : Nat) (hj : j < c.busy.length) :
      c.lockHolder = some .releaser → c.rPc = .releasing →
      PoolStep c ⟨none, c.busy.set j false, c.wPc, .released⟩

/-- The spec's scenario at the moment the third `acquire` has blocked:
`min_size = max_size = 2`, both connections leased and busy, the waiter
inside the wait loop holding the pool lock, the releaser about to release
one of the two connections. -/
def poolDeadlockInit : PoolConfig :=
  ⟨some .waiter, [true, true], .scanning, .lockWait⟩

theorem poolStep_fixed {c c₁ : PoolConfig} (hc : c = poolDeadlockInit)
    (h : PoolStep c c₁) : c₁ = c := by
  subst hc
  cases h with
  | wFound i hi hl hw hb =>
    have hmem : (false : Bool) ∈ poolDeadlockInit.busy := hb ▸ List.getElem_mem hi
    simp [poolDeadlockInit] at hmem
  | wSpin hl hw hb => rfl
  | rAcquire hl hr => simp [poolDeadlockInit] at hl
  | rRelease j hj hl hr => simp [poolDeadlockInit] at hl

/-- C3: once the pool is at maximum size with every connection busy and a
`get_connection` call has entered its wait loop, the system is stuck: the
waiter polls forever while holding the pool lock, `release_connection` can
never enter the lock, no release ever happens, and the blocked acquire never
completes.  This refutes the claim that a release step always remains
possible and wakes the waiter. -/
theorem c3_pool_full_acquire_release_deadlock :
    ∀ c : PoolConfig, Relation.ReflTransGen PoolStep poolDeadlockInit c →
      c.wPc = .scanning ∧ c.rPc = .lockWait ∧
        c.lockHolder = some .waiter ∧ ∀ c₁, PoolStep c c₁ → c₁ = c := by
  have hfix : ∀ c, Relation.ReflTransGen PoolStep poolDeadlockInit c →
      c = poolDeadlockInit := by
    intro c h
    induction h with
    | refl => rfl
    | tail hsteps hstep ih =>
      rw [poolStep_fixed ih hstep, ih]
  intro c h
  have hc := hfix c h
  subst hc
  exact ⟨rfl, rfl, rfl, fun c₁ hstep => poolStep_fixed rfl hstep⟩

/-- C3, witness: the initial configuration itself is reachable and stuck. -/
theorem c3_witness :
    poolDeadlockInit.wPc = .scanning ∧ poolDeadlockInit.rPc = .lockWait ∧
      poolDeadlockInit.lockHolder = some .waiter ∧
      ∀ c₁, PoolStep poolDeadlockInit c₁ → c₁ = poolDeadlockInit :=
  c3_pool_full_acquire_release_deadlock poolDeadlockInit .refl

/-- Connection counts of the pool: the total number of pooled connections
and how many are leased (busy). -/
structure PoolSize where
  total : Nat
  busy : Nat
deriving Repr, DecidableEq

/-- Size-changing transitions of `ConnectionPool`, read off the source.
`startCreate` is one iteration of the start-up loop of `start`
(`for _ in range(self.min_size): await self._create_connection()`,
connection.py lines 60-62): it is unconditional — neither this loop nor
`_create_connection` checks the pool size — so whenever a `start` call runs
it adds a connection regardless of the current total.  `replenish` is the
guarded loop `while len(self._pool) < self.min_size` of `_maintain_pool`;
`acquireIdle` and `acquireNew` the two arms of `get_connection` (a new
connection is created only when no idle one exists and
`len(self._pool) < self.max_size`); `release` is `release_connection`;
`expireIdle`/`expireBusy` the eviction loop of `_maintain_pool`; `closeAll`
is `stop`.  The flag `allowStart` selects whether `start` steps may occur:
`true` models arbitrary call sequences, `false` the steady state after the
one intended start-up call has completed. -/
inductive SizeStep (allowStart : Bool) (minSize maxSize : Nat) :
    PoolSize → PoolSize → Prop where
  | startCreate (s : PoolSize) : allowStart = true →
      SizeStep allowStart minSize maxSize s ⟨s.total + 1, s.busy⟩
  | replenish (s : PoolSize) : s.total < minSize →
      SizeStep allowStart minSize maxSize s ⟨s.total + 1, s.busy⟩
  | acquireIdle (s : PoolSize) : s.busy < s.total →
      SizeStep allowStart minSize maxSize s ⟨s.total, s.busy + 1⟩
  | acquireNew (s : PoolSize) : s.busy = s.total → s.total < maxSize →
      SizeStep allowStart minSize maxSize s ⟨s.total + 1, s.busy + 1⟩
  | release (s : PoolSize) : 0 < s.busy →
      SizeStep allowStart minSize maxSize s ⟨s.total, s.busy - 1⟩
  | expireIdle (s : PoolSize) : s.busy < s.total →
      SizeStep allowStart minSize maxSize s ⟨s.total - 1, s.busy⟩
  | expireBusy (s : PoolSize) : 0 < s.busy →
      SizeStep allowStart minSize maxSize s ⟨s.total - 1, s.busy - 1⟩
  | closeAll (s : PoolSize) : SizeStep allowStart minSize maxSize s ⟨0, 0⟩

/-- C7, amended: when the single `start()` call runs first, on the empty
pool — leaving exactly `min_size` connections — and `min_size ≤ max_size`,
every subsequent sequence of acquire, release, and maintenance steps keeps
the number of pooled connections at or below `max_size`.  The restriction
on `start` is necessary: its creation loop is unguarded, so a sequence that
runs `start` after other steps can exceed the maximum
(`c7_counterexample`). -/
theorem c7_pool_size_bounded_in_steady_state (minSize maxSize : Nat)
    (hmm : minSize ≤ maxSize) :
    ∀ s : PoolSize,
      Relation.ReflTransGen (SizeStep false minSize maxSize) ⟨minSize, 0⟩ s →
      s.total ≤ maxSize := by
  intro s h
  induction h with
  | refl => exact hmm
  | tail hsteps hstep ih =>
    cases hstep with
    | startCreate hs => exact Bool.noConfusion hs
    | replenish hlt => exact Nat.succ_le_of_lt (Nat.lt_of_lt_of_le hlt hmm)
    | acquireIdle hlt => exact ih
    | acquireNew heq hlt => exact Nat.succ_le_of_lt hlt
    | release hlt => exact ih
    | expireIdle hlt => exact Nat.le_trans (Nat.sub_le _ _) ih
    | expireBusy hlt => exact Nat.le_trans (Nat.sub_le _ _) ih
    | closeAll => exact Nat.zero_le _

/-- C7, counterexample to the claim as stated: over arbitrary sequences of
start, acquire, release, and maintenance steps the bound fails — with
`min_size = max_size = 2`, a `get_connection` on the empty pool followed by
the two unconditional creations of a late `start()` call leaves three
pooled connections, exceeding the maximum. -/
theorem c7_counterexample :
    Relation.ReflTransGen (SizeStep true 2 2) ⟨0, 0⟩ ⟨3, 1⟩ ∧
      ¬((⟨3, 1⟩ : PoolSize).total ≤ 2) :=
  ⟨Relation.ReflTransGen.refl.tail (SizeStep.acquireNew ⟨0, 0⟩ rfl (by decide))
      |>.tail (SizeStep.startCreate ⟨1, 1⟩ rfl)
      |>.tail (SizeStep.startCreate ⟨2, 1⟩ rfl),
    by decide⟩

/-- C7, witness: with `min_size = max_size = 2`, the post-start state with
one connection then leased stays within the maximum. -/
theorem c7_witness : (⟨2, 1⟩ : PoolSize).total ≤ 2 :=
  c7_pool_size_bounded_in_steady_state 2 2 (by decide) ⟨2, 1⟩
    (Relation.ReflTransGen.refl.tail (SizeStep.acquireIdle ⟨2, 0⟩ (by decide)))

end Pool

namespace Correlator

/-- What the deadline-bound wait `asyncio.wait_for(future, timeout=30)` in
`send_command` yields: the correlated response message, or expiry of the
deadline with no matching response (an endpoint that never responds). -/
inductive WaitOutcome where
  | response (data : String)
  | timedOut
deriving Repr, DecidableEq

/-- The deadline of `send_command`, `asyncio.wait_for(future, timeout=30)`. -/
def sendTimeoutSeconds : Nat := 30

/-- `BlenderMCPClient.send_command` (lines 121-168): raises the library's
`ConnectionError` when not connected (`"未连接到服务器"`) or when the write
fails (`"发送命令失败"`); returns the correlated response on success; and on
deadline expiry deletes the pending future and raises the library's
`ConnectionError("命令响应超时")` — not `TimeoutError` — without retrying. -/
def send_command (hasWs : Bool) (sendFails : Bool) (outcome : WaitOutcome) :
    Except PyExc String :=
  if !hasWs then .error (.connectionError "未连接到服务器")
  else if sendFails then .error (.connectionError "发送命令失败")
  else
    match outcome with
    | .response data => .ok data
    | .timedOut => .error (.connectionError "命令响应超时")

/-- C4, amended: on a connected client whose endpoint never responds, when
the default 30-second deadline expires `send_command` fails with the typed
`ConnectionError` carrying the message `命令响应超时` — not with
`TimeoutError` — and performs no retry (the timeout branch raises
immediately after deleting the pending entry). -/
theorem c4_send_timeout_raises_connectionError :
    send_command true false .timedOut =
      .error (.connectionError "命令响应超时") ∧
    (raisedExc (send_command true false .timedOut)).map pyExcClass =
      some "ConnectionError" ∧
    sendTimeoutSeconds = 30 :=
  ⟨rfl, rfl, rfl⟩

/-- C4, counterexample to the claim as stated: the failure raised on
deadline expiry is not the typed `TimeoutError` the claim names. -/
theorem c4_counterexample :
    (raisedExc (send_command true false .timedOut)).map pyExcClass =
      some "ConnectionError" ∧
    (raisedExc (send_command true false .timedOut)).map pyExcClass ≠
      some "TimeoutError" :=
  ⟨rfl, by decide⟩

/-- State of the `asyncio` future created by `send_command` for one
correlation id: pending (not done), resolved with the response frame, or
cancelled by `asyncio.wait_for`'s deadline handling (cancellation makes the
future done immediately, before control returns to `send_command`). -/
inductive FutState where
  | pendingFut
  | resolved (data : String)
  | cancelled
deriving Repr, DecidableEq

/-- What the `send_command` caller has observed. `gotConnError` is the typed
`ConnectionError("命令响应超时")` of the timeout branch; `gotKeyError` is an
uncaught builtin `KeyError` escaping `del self._response_futures[message_id]`
inside the `except asyncio.TimeoutError` block. -/
inductive CallerView where
  | awaitingResponse
  | gotResult (data : String)
  | gotConnError
  | gotKeyError
deriving Repr, DecidableEq

/-- State of one correlation id: whether `_response_futures` still holds its
entry, the future's state, and what the caller has observed. -/
structure CorrState where
  pendingPresent : Bool
  fut : FutState
  caller : CallerView
deriving Repr, DecidableEq

/-- Scheduler events involving one correlation id, at the granularity the
event loop can actually interleave them:

* `frameArrives data` — `_handle_message` (client.py lines 194-197) runs on
  a frame carrying the id: when the entry is present it is popped, and the
  future is resolved only under the `if not future.done()` guard; an absent
  id falls through to the unhandled-message log and the frame is dropped;
* `deadlineCancels` — the 30 s deadline of `asyncio.wait_for` fires: the
  inner future is cancelled (it becomes done); `wait_for` then awaits the
  cancellation before re-raising, so other tasks may run next;
* `timeoutBodyRuns` — `asyncio.TimeoutError` reaches `send_command` and the
  `except` block (client.py lines 165-168) runs synchronously:
  `del self._response_futures[message_id]` — which raises `KeyError` when
  the entry is already gone — then `raise ConnectionError("命令响应超时")`;
* `callerResumes` — `wait_for` returns the resolved future's value and
  `send_command` returns it. -/
inductive CorrEvent where
  | frameArrives (data : String)
  | deadlineCancels
  | timeoutBodyRuns
  | callerResumes
deriving Repr, DecidableEq

/-- One event step of the correlation machinery, as described on the event
constructors. -/
def corrStep (s : CorrState) : CorrEvent → CorrState
  | .frameArrives data =>
    if s.pendingPresent then
      match s.fut with
      | .pendingFut => ⟨false, .resolved data, s.caller⟩
      | _ => ⟨false, s.fut, s.caller⟩
    else s
  | .deadlineCancels =>
    match s.fut with
    | .pendingFut => ⟨s.pendingPresent, .cancelled, s.caller⟩
    | _ => s
  | .timeoutBodyRuns =>
    if s.fut = .cancelled ∧ s.caller = .awaitingResponse then
      if s.pendingPresent then ⟨false, s.fut, .gotConnError⟩
      else ⟨s.pendingPresent, s.fut, .gotKeyError⟩
    else s
  | .callerResumes =>
    match s.fut, s.caller with
    | .resolved data, .awaitingResponse =>
      ⟨s.pendingPresent, s.fut, .gotResult data⟩
    | _, _ => s

/-- A `send_command` call followed by the given events: the entry is
registered (`self._response_futures[message_id] = future`), the message is
written, and the events are then processed in order. -/
def corrRun (evs : List CorrEvent) : CorrState :=
  evs.foldl corrStep ⟨true, .pendingFut, .awaitingResponse⟩

/-- Whether the caller received a correlated result. -/
def isResultDelivered : CallerView → Bool
  | .gotResult _ => true
  | _ => false

/-- Whether the caller received the typed timeout failure
(`ConnectionError("命令响应超时")`). -/
def isTimeoutDelivered : CallerView → Bool
  | .gotConnError => true
  | _ => false

/-- C5: the claim fails on the code.  When the correlated frame arrives in
the window between `asyncio.wait_for` cancelling the future at the deadline
and the `except` block running, `_handle_message` pops the entry but — the
future being done — does not resolve it, and the `except` block's
`del self._response_futures[message_id]` then raises an uncaught `KeyError`:
the caller receives neither the result nor the timeout.  For contrast, the
race-free timeout trace delivers the typed timeout with the entry removed
(a later frame is dropped), and the normal trace delivers the result. -/
theorem c5_race_delivers_neither_result_nor_timeout :
    (corrRun [.deadlineCancels, .frameArrives "late", .timeoutBodyRuns]).caller
        = .gotKeyError ∧
    isResultDelivered
        (corrRun [.deadlineCancels, .frameArrives "late",
          .timeoutBodyRuns]).caller = false ∧
    isTimeoutDelivered
        (corrRun [.deadlineCancels, .frameArrives "late",
          .timeoutBodyRuns]).caller = false ∧
    corrRun [.deadlineCancels, .timeoutBodyRuns, .frameArrives "late"] =
      ⟨false, .cancelled, .gotConnError⟩ ∧
    corrRun [.frameArrives "r", .callerResumes] =
      ⟨false, .resolved "r", .gotResult "r"⟩ :=
  ⟨rfl, rfl, rfl, rfl, rfl⟩

end Correlator

namespace Ipc

/-- JSON-like values carried inside IPC envelopes. -/
inductive JVal where
  | s : String → JVal
  | n : Int → JVal
  | b : Bool → JVal
  | obj : List (String × JVal) → JVal
deriving Repr

/-- An IPC envelope or response body: a JSON object, as an association list
in insertion order. -/
abbrev JDict := List (String × JVal)

/-- `executor.process_request` (`blendermcp/addon/executor.py` lines 36-63):
look up `request["tool"]` in the handler table and return the handler's
result unchanged, or an error object for an unknown tool.  (The fallback arm
interpolates the offending tool value into the message; the claims never
reach it with a non-string, absent value, so the message is fixed to the
`None` form here.) -/
def process_request (handlers : List (String × (JVal → JDict)))
    (request : JDict) : JDict :=
  match getVal "tool" request with
  | some (.s t) =>
    match getVal t handlers with
    | some h => h ((getVal "params" request).getD (.obj []))
    | none => [("status", .s "error"), ("message", .s ("未知工具: " ++ t))]
  | _ => [("status", .s "error"), ("message", .s "未知工具: None")]

/-- The body of the Blender-side loop started by
`ipc.start_request_processor` (lines 154-170): run the processor on the
request and, when the request has an `id` that the response lacks, copy it
into the response before putting it on the response queue. -/
def processorRespond (handlers : List (String × (JVal → JDict)))
    (request : JDict) : JDict :=
  let response := process_request handlers request
  match getVal "id" request with
  | some idv =>
    if (getVal "id" response).isSome then response else response ++ [("id", idv)]
  | none => response

/-- `ipc.send_request_to_blender` (lines 88-123) under normal operation
(the executor answers within the 30 s window): assign a fresh id when the
request lacks one, enqueue the request, and return the response that
`handle_blender_response` stores for that id — which, with a live
processor loop, is exactly the processor's output for the request. -/
def send_request_to_blender (freshId : String) (respond : JDict → JDict)
    (request : JDict) : JDict :=
  let request₁ :=
    if (getVal "id" request).isSome then request
    else request ++ [("id", .s freshId)]
  respond request₁

/-- The full server-to-executor round trip of one envelope. -/
def bridgeRoundTrip (handlers : List (String × (JVal → JDict)))
    (freshId : String) (request : JDict) : JDict :=
  send_request_to_blender freshId (processorRespond handlers) request

/-- A handler that echoes its params: returns the params mapping itself. -/
def echoHandler : JVal → JDict
  | .obj kvs => kvs
  | _ => []

/-- C8, amended: for every params mapping (without an `id` key of its own),
sending `{id: X, tool: "echo", params}` through the IPC bridge to an
executor whose handler echoes its params returns the handler's mapping with
`id: X` appended — the bridge copies the raw handler return plus the id and
never wraps it in a `result` field. -/
theorem c8_bridge_returns_handler_dict_plus_id (params : JDict)
    (freshId X : String) (hid : getVal "id" params = none) :
    bridgeRoundTrip [("echo", echoHandler)] freshId
        [("id", .s X), ("tool", .s "echo"), ("params", .obj params)] =
      params ++ [("id", .s X)] := by
  unfold bridgeRoundTrip send_request_to_blender processorRespond process_request
  simp [getVal, echoHandler, hid]

/-- C8, witness: the echo round trip on `params = {x: 1}` with id `X`. -/
theorem c8_witness :
    bridgeRoundTrip [("echo", echoHandler)] "fresh"
        [("id", .s "X"), ("tool", .s "echo"), ("params", .obj [("x", .n 1)])] =
      [("x", .n 1), ("id", .s "X")] :=
  c8_bridge_returns_handler_dict_plus_id [("x", .n 1)] "fresh" "X" rfl

/-- C8, counterexample to the claim as stated: on `params = {x: 1}` and id
`X`, the waiting caller receives `{x: 1, id: X}`, which has no `result` key
at all — not the claimed `{id: X, result: params}`. -/
theorem c8_counterexample :
    bridgeRoundTrip [("echo", echoHandler)] "fresh"
        [("id", .s "X"), ("tool", .s "echo"), ("params", .obj [("x", .n 1)])] =
      [("x", .n 1), ("id", .s "X")] ∧
    (getVal "result" (bridgeRoundTrip [("echo", echoHandler)] "fresh"
        [("id", .s "X"), ("tool", .s "echo"),
         ("params", .obj [("x", .n 1)])])).isSome = false :=
  ⟨rfl, rfl⟩

end Ipc

namespace Registry

/-- `ToolDefinition` from `blendermcp/client/tools.py` (the fields the
registry claims touch; the schema is kept opaque). -/
structure ToolDefinition where
  name : String
  description : String
  category : String
  inputSchema : String
deriving Repr, DecidableEq

/-- `ToolRegistry` state: the `_tools` dict (name → definition) and the
`_categories` dict (category → list of names, appended per registration). -/
structure ToolRegistry where
  tools : List (String × ToolDefinition)
  categories : List (String × List String)
deriving Repr, DecidableEq

/-- Python dict assignment `d[k] = v`: replace in place (keeping the key's
position, as CPython dicts do), or append a new binding. -/
def setKey {α : Type} : List (String × α) → String → α → List (String × α)
  | [], k, v => [(k, v)]
  | (k₀, v₀) :: rest, k, v =>
    if k₀ = k then (k, v) :: rest else (k₀, v₀) :: setKey rest k v

/-- Append `x` to the list stored at key `k` (`d[k].append(x)`); a missing
key leaves the dict unchanged (the caller guarantees presence). -/
def appendAt : List (String × List String) → String → String →
    List (String × List String)
  | [], _, _ => []
  | (k₀, v₀) :: rest, k, x =>
    if k₀ = k then (k₀, v₀ ++ [x]) :: rest else (k₀, v₀) :: appendAt rest k x

/-- `ToolRegistry.register_tool` (lines 63-69): store the definition under
its name in `_tools` (replacing any previous one), create the category
bucket if absent, and append the name to the bucket unconditionally. -/
def register_tool (r : ToolRegistry) (t : ToolDefinition) : ToolRegistry :=
  let tools := setKey r.tools t.name t
  let cats :=
    if (getVal t.category r.categories).isSome then r.categories
    else r.categories ++ [(t.category, [])]
  ⟨tools, appendAt cats t.category t.name⟩

/-- `ToolRegistry.list_tools` (lines 83-88): without a filter, the `_tools`
values in dict order; with a category filter, the definitions looked up by
each name recorded under the category (`self._tools[name]` raises
`KeyError` on a stale name). -/
def list_tools (r : ToolRegistry) : Option String →
    Except PyExc (List ToolDefinition)
  | some c =>
    ((getVal c r.categories).getD []).mapM fun n =>
      match getVal n r.tools with
      | some t => Except.ok t
      | none => Except.error (.keyError n)
  | none => .ok (r.tools.map Prod.snd)

theorem mem_keysOf_setKey {α : Type} {l : List (String × α)} {k x : String}
    {v : α} (h : x ∈ keysOf (setKey l k v)) : x ∈ keysOf l ∨ x = k := by
  induction l with
  | nil =>
    simp [setKey, keysOf] at h
    exact Or.inr h
  | cons e rest ih =>
    obtain ⟨k₀, v₀⟩ := e
    by_cases hk : k₀ = k
    · simp only [setKey, hk, if_true, keysOf, List.map_cons] at h
      rcases List.mem_cons.mp h with h | h
      · exact Or.inr h
      · exact Or.inl (by simp [keysOf, hk]; exact Or.inr (by simpa [keysOf] using h))
    · simp only [setKey, hk, if_false, keysOf, List.map_cons] at h
      rcases List.mem_cons.mp h with h | h
      · exact Or.inl (by simp [keysOf, h])
      · rcases ih (by simpa [keysOf] using h) with h | h
        · exact Or.inl (by simp [keysOf] at h ⊢; exact Or.inr h)
        · exact Or.inr h

theorem setKey_nodup {α : Type} {l : List (String × α)} {k : String} {v : α}
    (hnd : (keysOf l).Nodup) : (keysOf (setKey l k v)).Nodup := by
  induction l with
  | nil => simp [setKey, keysOf]
  | cons e rest ih =>
    obtain ⟨k₀, v₀⟩ := e
    simp only [keysOf, List.map_cons, List.nodup_cons] at hnd
    by_cases hk : k₀ = k
    · subst hk
      simp only [setKey, if_true, keysOf, List.map_cons, List.nodup_cons]
      exact hnd
    · simp only [setKey, hk, if_false, keysOf, List.map_cons, List.nodup_cons]
      refine ⟨?_, ih hnd.2⟩
      intro hmem
      rcases mem_keysOf_setKey (by simpa [keysOf] using hmem) with h | h
      · exact hnd.1 (by simpa [keysOf] using h)
      · exact hk h

theorem setKey_wf {l : List (String × ToolDefinition)} {t : ToolDefinition}
    (hwf : ∀ e ∈ l, e.2.name = e.1) :
    ∀ e ∈ setKey l t.name t, e.2.name = e.1 := by
  induction l with
  | nil =>
    intro e he
    simp [setKey] at he
    subst he
    rfl
  | cons e₀ rest ih =>
    obtain ⟨k₀, v₀⟩ := e₀
    intro e he
    by_cases hk : k₀ = t.name
    · simp only [setKey, hk, if_true] at he
      rcases List.mem_cons.mp he with he | he
      · subst he
        rfl
      · exact hwf e (List.mem_cons_of_mem _ he)
    · simp only [setKey, hk, if_false] at he
      rcases List.mem_cons.mp he with he | he
      · subst he
        exact hwf (k₀, v₀) (by simp)
      · exact ih (fun e' he' => hwf e' (List.mem_cons_of_mem _ he')) e he

theorem setKey_count_self {l : List (String × ToolDefinition)}
    {t : ToolDefinition} (hnd : (keysOf l).Nodup)
    (hwf : ∀ e ∈ l, e.2.name = e.1) :
    ((setKey l t.name t).map Prod.snd).count t = 1 := by
  induction l with
  | nil => simp [setKey]
  | cons e₀ rest ih =>
    obtain ⟨k₀, v₀⟩ := e₀
    simp only [keysOf, List.map_cons, List.nodup_cons] at hnd
    by_cases hk : k₀ = t.name
    · subst hk
      simp only [setKey, if_true, List.map_cons]
      rw [List.count_cons_self]
      have hzero : (rest.map Prod.snd).count t = 0 := by
        rw [List.count_eq_zero]
        intro hmem
        obtain ⟨e, he, hesnd⟩ := List.mem_map.mp hmem
        have hname := hwf e (List.mem_cons_of_mem _ he)
        rw [hesnd] at hname
        exact hnd.1 (hname ▸ List.mem_map.mpr ⟨e, he, rfl⟩)
      omega
    · simp only [setKey, hk, if_false, List.map_cons]
      have hne : v₀ ≠ t := by
        intro hv
        have := hwf (k₀, v₀) (by simp)
        rw [hv] at this
        exact hk this.symm
      rw [List.count_cons_of_ne (by simpa using hne.symm)]
      exact ih hnd.2 (fun e he => hwf e (List.mem_cons_of_mem _ he))

/-- The registry as built by `ToolRegistry.__init__` before
`_register_all_tools` has run: both dicts empty. -/
def emptyRegistry : ToolRegistry := ⟨[], []⟩

/-- A concrete tool definition (the registry's basic material tool). -/
def sampleTool : ToolDefinition :=
  ⟨"set_material", "set basic material properties", "material", "object schema"⟩

/-- C9, amended: registering the identical definition twice leaves the
unfiltered `list_tools()` reporting the tool exactly once, because
`register_tool` replaces by name in `_tools`; but `list_tools(category)`
reports it once per registration, because `register_tool` appends the name
to the category bucket on every call — concretely, double registration of
the sample tool lists it twice under its category. -/
theorem c9_register_twice_listing (r : ToolRegistry) (t : ToolDefinition)
    (hnd : (keysOf r.tools).Nodup) (hwf : ∀ e ∈ r.tools, e.2.name = e.1) :
    (∃ l, list_tools (register_tool (register_tool r t) t) none = .ok l ∧
      l.count t = 1) ∧
    list_tools (register_tool (register_tool emptyRegistry sampleTool)
        sampleTool) (some "material") = .ok [sampleTool, sampleTool] := by
  constructor
  · refine ⟨((register_tool (register_tool r t) t).tools.map Prod.snd), rfl, ?_⟩
    have h₁ := setKey_nodup (l := r.tools) (k := t.name) (v := t) hnd
    have h₂ := setKey_wf (l := r.tools) (t := t) hwf
    exact setKey_count_self h₁ h₂
  · rfl

/-- C9, witness: the amended statement at the empty registry and the
sample tool. -/
theorem c9_witness :
    (∃ l, list_tools (register_tool (register_tool emptyRegistry sampleTool)
        sampleTool) none = .ok l ∧ l.count sampleTool = 1) ∧
    list_tools (register_tool (register_tool emptyRegistry sampleTool)
        sampleTool) (some "material") = .ok [sampleTool, sampleTool] :=
  c9_register_twice_listing emptyRegistry sampleTool
    (by simp [emptyRegistry, keysOf]) (by simp [emptyRegistry])

/-- C9, counterexample to the claim as stated: after registering the same
definition twice, the category-filtered listing reports the tool twice, not
exactly once. -/
theorem c9_counterexample :
    (list_tools (register_tool (register_tool emptyRegistry sampleTool)
        sampleTool) (some "material")).map (fun l => l.count sampleTool) =
      .ok 2 ∧ (2 : Nat) ≠ 1 :=
  ⟨rfl, by decide⟩

end Registry
